import Mathlib

/-!
Verification of the Egg parser-generator runtime (`parse.hpp`), grammar AST
(`ast.hpp`) and the failure reporter of `main.cc` against its specification.

The C++ code is shallowly embedded:

* `std::istream` + `std::deque<char>` buffer: the stream contents are a fixed
  `List Char` (`input`); the stream read position is always
  `str_off + str.length`, because every byte `istream::read` delivers is
  appended to the deque `str` and bytes only leave `str` through `forgetTo`,
  which does not touch the stream.
* machine integers (`unsigned long ind`, `int64_t`): `Nat`.  No claim below
  depends on wraparound; where the C++ code would wrap or run out of bounds
  (e.g. `forgetTo` past `maxRead`, the reporter with `maxRead() = 0`) the
  behaviour is undefined in C++ and the relevant precondition is made
  explicit (claim C9).
* `char`: `Char`.  All bytes compared by the claims are ASCII, where the
  C++ (possibly signed) `char` ordering and the `Char` ordering agree.
* exceptions (`forgotten_state_error`): `Except`.
-/

namespace parse

/-- Error thrown when a parser is asked for state it has forgotten
(`parse.hpp` lines 43-70). -/
structure forgotten_state_error where
  req : Nat
  avail : Nat
  newlines : Nat
deriving DecidableEq, Repr

/-- The constructor of `forgotten_state_error` (`parse.hpp` line 49-51):
`forgotten_state_error(ind req, ind avail, ind newlines) : ...,
req(req), avail(avail), newlines(0) {}`.  Note that the source initializes
the `newlines` member to the literal `0`, ignoring the `newlines`
argument. -/
def forgotten_state_error.make (req avail newlines : Nat) : forgotten_state_error :=
  { req := req, avail := avail, newlines := 0 }

/-- Parser state (`parse.hpp` class `state`).  `input` is the contents of the
`std::istream`; the stream's read position is `str_off + str.length`
(see the module comment). -/
structure state where
  input : List Char
  pos : Nat
  str : List Char
  str_off : Nat
  newlines_off : Nat
deriving DecidableEq, Repr

/-- The constructor `state(std::istream& in) : pos(0), str(), str_off(0), in(in) {}`
(`parse.hpp` line 85).  The member `newlines_off` is absent from the
initializer list, so it is default-initialized, i.e. holds an indeterminate
value; `junk` models that indeterminate initial value. -/
def state.mkState (input : List Char) (junk : Nat) : state :=
  { input := input, pos := 0, str := [], str_off := 0, newlines_off := junk }

/-- `state::maxRead()` (`parse.hpp` line 200-202). -/
def state.maxRead (ps : state) : Nat :=
  ps.str_off + ps.str.length

/-- `state::read(n)` (`parse.hpp` lines 209-218): reads up to `n` characters
from the stream (whose position is `str_off + str.length`), appends them to
`str`, and returns the number of characters read. -/
def state.read (ps : state) (n : Nat) : Nat × state :=
  let s := (ps.input.drop (ps.str_off + ps.str.length)).take n
  (s.length, { ps with str := ps.str ++ s })

/-- `state::operator[](i)` (`parse.hpp` lines 96-112).  Throws on `i < str_off`,
reads more input if `i` is past the stored input, returns `'\0'` past end of
file.  The final `str[ii]` of the source is modelled with `getD`; the index is
in bounds whenever the source reaches that line (proved below). -/
def state.get (ps : state) (i : Nat) : Except forgotten_state_error (Char × state) :=
  if i < ps.str_off then
    .error (forgotten_state_error.make i ps.str_off ps.newlines_off)
  else
    let ii := i - ps.str_off
    if ps.str.length ≤ ii then
      let n := 1 + ii - ps.str.length
      let rs := ps.read n
      if rs.1 < n then .ok ('\x00', rs.2)
      else .ok (rs.2.str.getD ii '\x00', rs.2)
    else
      .ok (ps.str.getD ii '\x00', ps)

/-- `state::range(i, n)` (`parse.hpp` lines 126-157).  The returned iterator
pair denotes the characters `str[ib .. min (ib+n) str.length)`; the model
returns that character list. -/
def state.range (ps : state) (i n : Nat) : Except forgotten_state_error (List Char × state) :=
  if i < ps.str_off then
    .error (forgotten_state_error.make i ps.str_off ps.newlines_off)
  else
    let ib := i - ps.str_off
    let ie := ib + n
    let ps1 := if ps.str.length < ie then (ps.read (ie - ps.str.length)).2 else ps
    .ok ((ps1.str.drop ib).take n, ps1)

/-- `state::string(i, n)` (`parse.hpp` lines 166-169). -/
def state.string (ps : state) (i n : Nat) : Except forgotten_state_error (String × state) :=
  match ps.range i n with
  | .error e => .error e
  | .ok (l, ps') => .ok (String.mk l, ps')

/-- `state::forgetTo(i)` (`parse.hpp` lines 176-194). -/
def state.forgetTo (ps : state) (i : Nat) : state :=
  if i ≤ ps.str_off then ps
  else
    let ii := i - ps.str_off
    { ps with
      newlines_off := ps.newlines_off + (ps.str.take ii).countP (fun c => c == '\n'),
      str := ps.str.drop ii,
      str_off := i }

/-- Buffer well-formedness: the deque holds exactly the slice of the stream
starting at `str_off`.  This holds for every state the program can build
(proved for the constructor and every operation below). -/
def state.wf (ps : state) : Prop :=
  ps.str = (ps.input.drop ps.str_off).take ps.str.length

/-- `result<T>` (`parse.hpp` lines 256-298): a value of `T` plus a success
flag. -/
structure result (T : Type) where
  val : T
  success : Bool
deriving DecidableEq, Repr

/-- `result(const T& v)` : wraps a value. -/
def result.ofVal {T : Type} (v : T) : result T :=
  { val := v, success := true }

/-- `result(const failure&)` and `result()` : failure.  The member `T val` is
default-initialized by the source (for class types that default-constructs it,
for scalar `T` it is indeterminate); `u` models that initial value, which no
claim depends on. -/
def result.ofFail {T : Type} (u : T) : result T :=
  { val := u, success := false }

/-- `operator=(const T& v)` : sets the result to a success containing `v`. -/
def result.setVal {T : Type} (_r : result T) (v : T) : result T :=
  { val := v, success := true }

/-- `operator=(const failure&)` : sets `success` to `false`; the source does
not touch `val`. -/
def result.setFail {T : Type} (r : result T) : result T :=
  { r with success := false }

/-- `operator=(const result<T>& o)` : copies `val` only when `o` succeeded. -/
def result.assign {T : Type} (r o : result T) : result T :=
  if o.success then { val := o.val, success := true } else { r with success := false }

/-- `operator bool ()`. -/
def result.toBool {T : Type} (r : result T) : Bool :=
  r.success

/-- `operator T ()` : returns `val` regardless of the success flag. -/
def result.toVal {T : Type} (r : result T) : T :=
  r.val

/-- Matcher `any` (`parse.hpp` lines 312-315).  Note the source indexes the
buffer twice on success: once in the guard, once in `match(ps[ps.pos++])`. -/
def any (ps : state) : Except forgotten_state_error (result Char × state) :=
  match ps.get ps.pos with
  | .error e => .error e
  | .ok (c, ps1) =>
    if c = '\x00' then .ok (result.ofFail '\x00', ps1)
    else
      match ps1.get ps1.pos with
      | .error e => .error e
      | .ok (c2, ps2) => .ok (result.ofVal c2, { ps2 with pos := ps2.pos + 1 })

/-- Matcher `matches<c>` (`parse.hpp` lines 318-323).  The source name
`matches` is a reserved word in Lean. -/
def matchesChar (c : Char) (ps : state) : Except forgotten_state_error (result Char × state) :=
  match ps.get ps.pos with
  | .error e => .error e
  | .ok (c0, ps1) =>
    if c0 ≠ c then .ok (result.ofFail '\x00', ps1)
    else .ok (result.ofVal c, { ps1 with pos := ps1.pos + 1 })

/-- Matcher `in_range<s, e>` (`parse.hpp` lines 326-333). -/
def in_range (s e : Char) (ps : state) : Except forgotten_state_error (result Char × state) :=
  match ps.get ps.pos with
  | .error err => .error err
  | .ok (c, ps1) =>
    if c < s ∨ e < c then .ok (result.ofFail '\x00', ps1)
    else .ok (result.ofVal c, { ps1 with pos := ps1.pos + 1 })

/-- Post-state of `operator[]` (convenience for building concrete states in
theorem statements; every indexing step in the scenarios below succeeds). -/
def state.getSt (ps : state) (i : Nat) : state :=
  match ps.get i with
  | .ok x => x.2
  | .error _ => ps

/-- The backward scan of the error reporter (`main.cc` line 266):
`for (startPos = maxPos-1; startPos > 0 && ps[startPos] != '\n'; --startPos);`.
The argument is the current scan index. -/
def scanBack : state → Nat → Except forgotten_state_error (Nat × state)
  | ps, 0 => .ok (0, ps)
  | ps, p + 1 =>
    match ps.get (p + 1) with
    | .error e => .error e
    | .ok (c, ps') => if c = '\n' then .ok (p + 1, ps') else scanBack ps' p

/-- The forward scan of the error reporter (`main.cc` line 267):
`for (endPos = maxPos; ps[endPos] != '\n' && ps[endPos] != '\0'; ++endPos);`.
The C++ loop terminates because indexing at or past end of file yields `'\0'`;
`fuel ≥ input.length + 2 - p` is enough for the stop condition to be reached
first (the reporter below passes `input.length + 2`). -/
def scanFwd (fuel : Nat) (ps : state) (p : Nat) : Except forgotten_state_error (Nat × state) :=
  match fuel with
  | 0 => .ok (p, ps)
  | fuel' + 1 =>
    match ps.get p with
    | .error e => .error e
    | .ok (c, ps') =>
      if c = '\n' ∨ c = '\x00' then .ok (p, ps') else scanFwd fuel' ps' (p + 1)

/-- The line-counting loop of the error reporter (`main.cc` lines 269-273):
`try { for (pos = startPos; pos > 0; --pos) lineCount += (ps[pos]=='\n'); }
catch (forgotten_state_error& e) { lineCount += e.newlines; }`.
Returns the amount added to `lineCount` and the final state; a thrown
`forgotten_state_error` aborts the loop and contributes its `newlines`
field. -/
def countNl : state → Nat → Nat × state
  | ps, 0 => (0, ps)
  | ps, p + 1 =>
    match ps.get (p + 1) with
    | .error e => (e.newlines, ps)
    | .ok (c, ps') =>
      let r := countNl ps' p
      ((if c = '\n' then 1 else 0) + r.1, r.2)

/-- The parse-failure report of `main.cc` lines 264-279.  `line1` and `line2`
are the first two lines written to stderr; the third stderr line consists of
two runs of spaces (the first computed with floating-point
`ceil(log10(lineCount)+4)`, which is not modelled) followed by
`"^-- error, column " ++ errPos`; the column number `errPos` it declares is
modelled.  `exitCode` is the value `main` returns on this path. -/
structure failure_report where
  maxPos : Nat
  startPos : Nat
  endPos : Nat
  lineCount : Nat
  errPos : Nat
  line1 : String
  line2 : String
  exitCode : Nat
deriving DecidableEq, Repr

/-- The failure branch of `main` (`main.cc` lines 264-279).  For
`maxRead() = 0` the source computes `startPos = -1` and converts it to the
unsigned index `2^64 - 1`, on which `operator[]` attempts an astronomically
sized stack allocation (undefined behaviour); the model clamps `maxPos - 1`
to `0` there and is only applied to states with `maxRead() ≥ 1`. -/
def report (ps0 : state) : Except forgotten_state_error failure_report :=
  let maxPos := ps0.maxRead
  match scanBack ps0 (maxPos - 1) with
  | .error e => .error e
  | .ok (p1, ps1) =>
    match ps1.get p1 with
    | .error e => .error e
    | .ok (c1, ps2) =>
      let startPos := if c1 = '\n' then p1 + 1 else p1
      match scanFwd (ps2.input.length + 2) ps2 maxPos with
      | .error e => .error e
      | .ok (endPos, ps3) =>
        let r := countNl ps3 startPos
        let lineCount := 1 + r.1
        let errPos := maxPos - startPos
        match r.2.string startPos (endPos - startPos) with
        | .error e => .error e
        | .ok (text, _) =>
          .ok { maxPos := maxPos, startPos := startPos, endPos := endPos,
                lineCount := lineCount, errPos := errPos,
                line1 := "Parse failure " ++ toString maxPos ++ " bytes into the input:",
                line2 := "line " ++ toString lineCount ++ ":   " ++ text,
                exitCode := 1 }

/-- The 1-based line number of stream index `i`: one plus the number of
`'\n'` bytes strictly before `i`. -/
def lineNumberAt (input : List Char) (i : Nat) : Nat :=
  1 + (input.take i).countP (fun c => c == '\n')

/-- States reachable from a freshly constructed `state` through the public
operations.  `junk` is the indeterminate initial value of the uninitialized
member `newlines_off`.  The `forget_step` hypothesis `i ≤ maxRead` reflects
that `forgetTo` past `maxRead` is undefined behaviour in the source
(claim C9); clients may write `pos` directly (`pos_step`), as the matchers
do. -/
inductive reachable (input : List Char) (junk : Nat) : state → Prop where
  | init : reachable input junk (state.mkState input junk)
  | get_step {ps : state} {i : Nat} {c : Char} {ps' : state} :
      reachable input junk ps → ps.get i = .ok (c, ps') → reachable input junk ps'
  | range_step {ps : state} {i n : Nat} {l : List Char} {ps' : state} :
      reachable input junk ps → ps.range i n = .ok (l, ps') → reachable input junk ps'
  | string_step {ps : state} {i n : Nat} {t : String} {ps' : state} :
      reachable input junk ps → ps.string i n = .ok (t, ps') → reachable input junk ps'
  | forget_step {ps : state} {i : Nat} :
      reachable input junk ps → i ≤ ps.maxRead → reachable input junk (ps.forgetTo i)
  | pos_step {ps : state} {p : Nat} :
      reachable input junk ps → reachable input junk { ps with pos := p }

end parse

namespace ast

/-- Matcher AST (`ast.hpp`): one constructor per `matcher_type` tag. -/
inductive matcher where
  | char (c : Char)
  | str (s : String)
  | range (rs : List (Char × Char))
  | rule (rule var : String)
  | any
  | empty
  | action (a : String)
  | opt (m : matcher)
  | many (m : matcher)
  | some (m : matcher)
  | seq (ms : List matcher)
  | alt (ms : List matcher)
  | look (m : matcher)
  | nope (m : matcher)
  | capt (m : matcher)

/-- `grammar_rule` (`ast.hpp` lines 347-358): name, return type (empty for
none), matcher body. -/
structure grammar_rule where
  name : String
  type : String
  m : matcher

/-- The name index of a grammar, modelled as an association list keyed by rule
name; `std::unordered_map` keeps at most one entry per key. -/
def lookupName (names : List (String × grammar_rule)) (k : String) : Option grammar_rule :=
  (names.find? (fun p => p.1 == k)).map (fun p => p.2)

/-- `std::unordered_map::insert(make_pair(k, v))` (`ast.hpp` line 369):
inserts only if no element with key `k` is present; otherwise the map is
unchanged. -/
def mapInsert (names : List (String × grammar_rule)) (k : String) (v : grammar_rule) :
    List (String × grammar_rule) :=
  if names.any (fun p => p.1 == k) then names else names ++ [(k, v)]

/-- `grammar` (`ast.hpp` lines 363-377): ordered rule list, name index, pre
and post actions. -/
structure grammar where
  rs : List grammar_rule
  names : List (String × grammar_rule)
  pre : String
  post : String

/-- `grammar()` : empty grammar. -/
def grammar.empty : grammar :=
  { rs := [], names := [], pre := "", post := "" }

/-- `grammar::operator+=(shared_ptr<grammar_rule> r)` (`ast.hpp` lines
367-371): `rs.push_back(r); names.insert(make_pair(r->name, r));`. -/
def grammar.addRule (g : grammar) (r : grammar_rule) : grammar :=
  { g with rs := g.rs ++ [r], names := mapInsert g.names r.name r }

/-- Name lookup on a grammar (`unordered_map::find`). -/
def grammar.findName (g : grammar) (k : String) : Option grammar_rule :=
  lookupName g.names k

end ast

namespace parse

/-- In-bounds condition for the deque accesses of `forgetTo` (`parse.hpp`
lines 185-190): when the `i ≤ str_off` early return is not taken, the newline
loop bound `str.begin() + ii` and the erase range `str.begin() .. str.begin() + ii`
with `ii = i - str_off` are valid deque iterators exactly when
`ii ≤ str.size()`. -/
def forgetToInBounds (ps : state) (i : Nat) : Prop :=
  ps.str_off < i → i - ps.str_off ≤ ps.str.length

end parse

namespace parse

/-- The stored slice is never longer than what the stream holds past
`str_off`. -/
theorem wf_str_length_le {ps : state} (h : ps.wf) :
    ps.str.length ≤ ps.input.length - ps.str_off := by
  have h' := congrArg List.length h
  simp only [List.length_take, List.length_drop] at h'
  omega

/-- `read` touches only `str`. -/
theorem read_preserves (ps : state) (n : Nat) :
    ((ps.read n).2).input = ps.input ∧ ((ps.read n).2).pos = ps.pos ∧
      ((ps.read n).2).str_off = ps.str_off ∧
      ((ps.read n).2).newlines_off = ps.newlines_off := by
  simp [state.read]

/-- `read` appends the next stream characters, so well-formedness is kept. -/
theorem read_wf {ps : state} (n : Nat) (h : ps.wf) : ((ps.read n).2).wf := by
  have hL : ps.str.length ≤ (ps.input.drop ps.str_off).length := by
    simpa using wf_str_length_le h
  show ps.str ++ _ = _
  simp only [state.read, List.length_append]
  rw [List.take_add, ← h]
  refine congrArg (ps.str ++ ·) ?_
  rw [← List.drop_drop, List.take_eq_take]
  simp only [List.length_take, List.length_drop]
  omega

/-- Number of characters `read` returns. -/
theorem read_fst (ps : state) (n : Nat) :
    (ps.read n).1 = min n (ps.input.length - (ps.str_off + ps.str.length)) := by
  simp [state.read]

/-- `read` grows `str` by exactly the number of characters it returns. -/
theorem read_str_length (ps : state) (n : Nat) :
    ((ps.read n).2).str.length = ps.str.length + (ps.read n).1 := by
  simp [state.read]

end parse

namespace parse

/-- `operator[]` throws exactly the error the source constructs (whose
`newlines` member is `0`, see `forgotten_state_error.make`) when the index
is below `str_off`. -/
theorem get_err {ps : state} {i : Nat} (h : i < ps.str_off) :
    ps.get i = .error { req := i, avail := ps.str_off, newlines := 0 } := by
  unfold state.get
  rw [if_pos h]
  rfl

/-- `operator[]` does not throw when the index is at or above `str_off`. -/
theorem get_ok_of_le {ps : state} {i : Nat} (h : ps.str_off ≤ i) :
    ∃ c ps', ps.get i = .ok (c, ps') := by
  unfold state.get
  rw [if_neg (by omega)]
  dsimp only
  split
  · split
    · exact ⟨_, _, rfl⟩
    · exact ⟨_, _, rfl⟩
  · exact ⟨_, _, rfl⟩

/-- A successful `operator[]` touches neither `pos`, `str_off`,
`newlines_off` nor the stream. -/
theorem get_preserves {ps : state} {i : Nat} {c : Char} {ps' : state}
    (h : ps.get i = .ok (c, ps')) :
    ps'.input = ps.input ∧ ps'.pos = ps.pos ∧ ps'.str_off = ps.str_off ∧
      ps'.newlines_off = ps.newlines_off := by
  unfold state.get at h
  split at h
  · exact absurd h (by simp)
  · dsimp only at h
    split at h
    · split at h <;>
      · simp only [Except.ok.injEq, Prod.mk.injEq] at h
        obtain ⟨-, h2⟩ := h
        subst h2
        simp [state.read]
    · simp only [Except.ok.injEq, Prod.mk.injEq] at h
      obtain ⟨-, h2⟩ := h
      subst h2
      exact ⟨rfl, rfl, rfl, rfl⟩

/-- Full characterisation of a non-throwing `operator[]` on a well-formed
state: the byte returned is the `i`-th byte of the stream (`'\0'` past end
of file), the state is still well-formed, only `str` grows, and `maxRead`
grows at most up to the end of the stream. -/
theorem get_spec {ps : state} {i : Nat} (hwf : ps.wf) (hi : ps.str_off ≤ i) :
    ∃ ps', ps.get i = .ok (ps.input.getD i '\x00', ps') ∧ ps'.wf ∧
      ps'.input = ps.input ∧ ps'.pos = ps.pos ∧ ps'.str_off = ps.str_off ∧
      ps'.newlines_off = ps.newlines_off ∧
      ps.maxRead ≤ ps'.maxRead ∧ ps'.maxRead ≤ max ps.maxRead ps.input.length ∧
      (i < ps'.maxRead ∨ ps.input.length ≤ i) := by
  have hlen : ps.str.length ≤ ps.input.length - ps.str_off := wf_str_length_le hwf
  by_cases hc : ps.str.length ≤ i - ps.str_off
  case neg =>
    have heq : ps.get i = .ok (ps.str.getD (i - ps.str_off) '\x00', ps) := by
      unfold state.get
      rw [if_neg (by omega)]
      dsimp only
      rw [if_neg hc]
    have hbyte : ps.str.getD (i - ps.str_off) '\x00' = ps.input.getD i '\x00' := by
      conv_lhs => rw [hwf]
      simp only [List.getD_eq_getElem?_getD, List.getElem?_take, List.getElem?_drop]
      rw [if_pos (by omega), (by omega : ps.str_off + (i - ps.str_off) = i)]
    refine ⟨ps, by rw [heq, hbyte], hwf, rfl, rfl, rfl, rfl, le_refl _, le_max_left _ _, ?_⟩
    left
    simp only [state.maxRead]
    omega
  case pos =>
    have hr := read_fst ps (1 + (i - ps.str_off) - ps.str.length)
    have hsl := read_str_length ps (1 + (i - ps.str_off) - ps.str.length)
    have hpre := read_preserves ps (1 + (i - ps.str_off) - ps.str.length)
    have hwfr := read_wf (1 + (i - ps.str_off) - ps.str.length) hwf
    by_cases hlt : (ps.read (1 + (i - ps.str_off) - ps.str.length)).1 <
        1 + (i - ps.str_off) - ps.str.length
    case pos =>
      have heq : ps.get i =
          .ok ('\x00', (ps.read (1 + (i - ps.str_off) - ps.str.length)).2) := by
        unfold state.get
        rw [if_neg (by omega)]
        dsimp only
        rw [if_pos hc, if_pos hlt]
      have hpast : ps.input.length ≤ i := by omega
      have hbyte : ps.input.getD i '\x00' = '\x00' := by
        simp [List.getD_eq_getElem?_getD, List.getElem?_eq_none hpast]
      refine ⟨(ps.read (1 + (i - ps.str_off) - ps.str.length)).2, by rw [heq, hbyte],
        hwfr, hpre.1, hpre.2.1, hpre.2.2.1, hpre.2.2.2, ?_, ?_, Or.inr hpast⟩
      · simp only [state.maxRead, hsl, hpre.2.2.1]
        omega
      · simp only [state.maxRead, hsl, hpre.2.2.1]
        omega
    case neg =>
      have hrn : (ps.read (1 + (i - ps.str_off) - ps.str.length)).1 =
          1 + (i - ps.str_off) - ps.str.length := by omega
      have hinb : i < ps.input.length := by omega
      have heq : ps.get i =
          .ok ((ps.read (1 + (i - ps.str_off) - ps.str.length)).2.str.getD
                (i - ps.str_off) '\x00',
               (ps.read (1 + (i - ps.str_off) - ps.str.length)).2) := by
        unfold state.get
        rw [if_neg (by omega)]
        dsimp only
        rw [if_pos hc, if_neg hlt]
      have hbyte : (ps.read (1 + (i - ps.str_off) - ps.str.length)).2.str.getD
          (i - ps.str_off) '\x00' = ps.input.getD i '\x00' := by
        conv_lhs => rw [hwfr]
        rw [hpre.1, hpre.2.2.1]
        simp only [List.getD_eq_getElem?_getD, List.getElem?_take, List.getElem?_drop]
        rw [if_pos (by omega), (by omega : ps.str_off + (i - ps.str_off) = i)]
      refine ⟨(ps.read (1 + (i - ps.str_off) - ps.str.length)).2, by rw [heq, hbyte],
        hwfr, hpre.1, hpre.2.1, hpre.2.2.1, hpre.2.2.2, ?_, ?_, ?_⟩
      · simp only [state.maxRead, hsl, hpre.2.2.1]
        omega
      · simp only [state.maxRead, hsl, hpre.2.2.1]
        omega
      · left
        simp only [state.maxRead, hsl, hpre.2.2.1]
        omega

end parse

namespace parse

/-- `forgetTo` at or below the current floor is the identity (`parse.hpp`
line 179). -/
theorem forgetTo_le {ps : state} {i : Nat} (h : i ≤ ps.str_off) :
    ps.forgetTo i = ps := by
  unfold state.forgetTo
  rw [if_pos h]

/-- `forgetTo` above the floor, within `maxRead`: erases the prefix, raises
the floor to `i`, adds the erased newlines to `newlines_off`, keeps
well-formedness, `maxRead`, `pos` and the stream. -/
theorem forgetTo_spec {ps : state} {i : Nat} (hwf : ps.wf) (hoff : ps.str_off < i)
    (hle : i ≤ ps.maxRead) :
    (ps.forgetTo i).wf ∧ (ps.forgetTo i).input = ps.input ∧
      (ps.forgetTo i).pos = ps.pos ∧ (ps.forgetTo i).str_off = i ∧
      (ps.forgetTo i).maxRead = ps.maxRead ∧
      (ps.forgetTo i).newlines_off = ps.newlines_off +
        ((ps.input.drop ps.str_off).take (i - ps.str_off)).countP (fun c => c == '\n') := by
  have hlen : ps.str.length ≤ ps.input.length - ps.str_off := wf_str_length_le hwf
  have hii : i - ps.str_off ≤ ps.str.length := by
    simp only [state.maxRead] at hle
    omega
  have hunf : ps.forgetTo i =
      { ps with
        newlines_off := ps.newlines_off +
          (ps.str.take (i - ps.str_off)).countP (fun c => c == '\n'),
        str := ps.str.drop (i - ps.str_off),
        str_off := i } := by
    unfold state.forgetTo
    rw [if_neg (by omega)]
  rw [hunf]
  refine ⟨?_, rfl, rfl, rfl, ?_, ?_⟩
  · show ps.str.drop (i - ps.str_off) = _
    conv_lhs => rw [hwf]
    rw [List.drop_take, List.drop_drop]
    simp only [List.length_drop]
    rw [(by omega : ps.str_off + (i - ps.str_off) = i)]
  · simp only [state.maxRead, List.length_drop]
    omega
  · have : ps.str.take (i - ps.str_off) =
        (ps.input.drop ps.str_off).take (i - ps.str_off) := by
      conv_lhs => rw [hwf]
      rw [List.take_take]
      rw [List.take_eq_take]
      simp only [List.length_take, List.length_drop]
      omega
    rw [this]

/-- A successful `range` only extends the buffer: everything but `str` is
kept, as is well-formedness. -/
theorem range_preserves {ps : state} {i n : Nat} {l : List Char} {ps' : state}
    (hwf : ps.wf) (h : ps.range i n = .ok (l, ps')) :
    ps'.wf ∧ ps'.input = ps.input ∧ ps'.pos = ps.pos ∧ ps'.str_off = ps.str_off ∧
      ps'.newlines_off = ps.newlines_off := by
  unfold state.range at h
  split at h
  · exact absurd h (by simp)
  · dsimp only at h
    simp only [Except.ok.injEq, Prod.mk.injEq] at h
    obtain ⟨-, h2⟩ := h
    subst h2
    split
    · exact ⟨read_wf _ hwf, (read_preserves ps _).1, (read_preserves ps _).2.1,
        (read_preserves ps _).2.2.1, (read_preserves ps _).2.2.2⟩
    · exact ⟨hwf, rfl, rfl, rfl, rfl⟩

/-- A successful `string` only extends the buffer. -/
theorem string_preserves {ps : state} {i n : Nat} {t : String} {ps' : state}
    (hwf : ps.wf) (h : ps.string i n = .ok (t, ps')) :
    ps'.wf ∧ ps'.input = ps.input ∧ ps'.pos = ps.pos ∧ ps'.str_off = ps.str_off ∧
      ps'.newlines_off = ps.newlines_off := by
  unfold state.string at h
  split at h
  · exact absurd h (by simp)
  · rename_i heq
    simp only [Except.ok.injEq, Prod.mk.injEq] at h
    obtain ⟨-, h2⟩ := h
    subst h2
    exact range_preserves hwf heq

/-- Newline accounting invariant: the running counter equals the number of
newlines in the discarded stream prefix, shifted by the indeterminate initial
value `junk` of the uninitialized `newlines_off` member. -/
theorem reachable_newlines {input : List Char} {junk : Nat} {ps : state}
    (h : reachable input junk ps) :
    ps.input = input ∧ ps.wf ∧
      ps.newlines_off = junk + (input.take ps.str_off).countP (fun c => c == '\n') := by
  induction h with
  | init =>
    refine ⟨rfl, ?_, by simp [state.mkState]⟩
    show ([] : List Char) = _
    simp [state.mkState]
  | get_step hr hget ih =>
    obtain ⟨hin, hwf, hnl⟩ := ih
    rename_i ps i c ps'
    have hpre := get_preserves hget
    rcases Nat.lt_or_ge i ps.str_off with hlt | hge
    · rw [get_err hlt] at hget
      exact absurd hget (by simp)
    · obtain ⟨ps'', hok, hwf', -⟩ := get_spec hwf hge
      rw [hget] at hok
      simp only [Except.ok.injEq, Prod.mk.injEq] at hok
      refine ⟨hpre.1.trans hin, ?_, ?_⟩
      · rw [hok.2]
        exact hwf'
      · rw [hpre.2.2.2, hpre.2.2.1, ← hin]
        rw [← hin] at hnl
        exact hnl
  | range_step hr hrange ih =>
    obtain ⟨hin, hwf, hnl⟩ := ih
    have hpre := range_preserves hwf hrange
    refine ⟨hpre.2.1.trans hin, hpre.1, ?_⟩
    rw [hpre.2.2.2.2, hpre.2.2.2.1, ← hin]
    rw [← hin] at hnl
    exact hnl
  | string_step hr hstring ih =>
    obtain ⟨hin, hwf, hnl⟩ := ih
    have hpre := string_preserves hwf hstring
    refine ⟨hpre.2.1.trans hin, hpre.1, ?_⟩
    rw [hpre.2.2.2.2, hpre.2.2.2.1, ← hin]
    rw [← hin] at hnl
    exact hnl
  | forget_step hr hle ih =>
    obtain ⟨hin, hwf, hnl⟩ := ih
    rename_i ps i
    rcases le_or_lt i ps.str_off with hcase | hcase
    · rw [forgetTo_le hcase]
      exact ⟨hin, hwf, hnl⟩
    · have hspec := forgetTo_spec hwf hcase hle
      have hsplit : (input.take i).countP (fun c => c == '\n') =
          (input.take ps.str_off).countP (fun c => c == '\n') +
            ((input.drop ps.str_off).take (i - ps.str_off)).countP (fun c => c == '\n') := by
        conv_lhs => rw [(by omega : i = ps.str_off + (i - ps.str_off))]
        rw [List.take_add, List.countP_append]
      refine ⟨hspec.2.1.trans hin, hspec.1, ?_⟩
      rw [hspec.2.2.2.2.2, hspec.2.2.2.1, hnl, hin, hsplit]
      omega
  | pos_step hr ih =>
    obtain ⟨hin, hwf, hnl⟩ := ih
    exact ⟨hin, hwf, hnl⟩

/-- The intended newline invariant (spec §8.7) holds for every reachable
state provided the uninitialized `newlines_off` member happens to start at
`0`: the counter plus the newlines still in the buffer below position `p`
account exactly for the newlines in the stream prefix `[0, p)`. -/
theorem newline_invariant_zero_init {input : List Char} {ps : state}
    (h : reachable input 0 ps) {p : Nat} (hp1 : ps.str_off ≤ p) (hp2 : p ≤ ps.maxRead) :
    ps.newlines_off + ((ps.str.take (p - ps.str_off)).countP (fun c => c == '\n')) =
      (input.take p).countP (fun c => c == '\n') := by
  obtain ⟨hin, hwf, hnl⟩ := reachable_newlines h
  have hlen : ps.str.length ≤ ps.input.length - ps.str_off := wf_str_length_le hwf
  have hpre : ps.str.take (p - ps.str_off) =
      (ps.input.drop ps.str_off).take (p - ps.str_off) := by
    conv_lhs => rw [hwf]
    rw [List.take_take, List.take_eq_take]
    simp only [List.length_take, List.length_drop]
    simp only [state.maxRead] at hp2
    omega
  have hsplit : (input.take p).countP (fun c => c == '\n') =
      (input.take ps.str_off).countP (fun c => c == '\n') +
        ((input.drop ps.str_off).take (p - ps.str_off)).countP (fun c => c == '\n') := by
    conv_lhs => rw [(by omega : p = ps.str_off + (p - ps.str_off))]
    rw [List.take_add, List.countP_append]
  rw [hnl, hpre, hin, hsplit]
  omega

end parse

namespace ast

/-- If the name index already holds key `k`, lookup finds some entry. -/
theorem lookupName_isSome_of_any {names : List (String × grammar_rule)} {k : String}
    (h : names.any (fun p => p.1 == k) = true) :
    ∃ w, lookupName names k = some w := by
  unfold lookupName
  have : (names.find? (fun p => p.1 == k)).isSome := by
    rw [List.find?_isSome]
    simpa using h
  obtain ⟨p, hp⟩ := Option.isSome_iff_exists.mp this
  rw [hp]
  exact ⟨p.2, rfl⟩

/-- `unordered_map::insert` never replaces an existing entry: after
`insert (k, v)`, lookup of `k` yields the previously stored rule if there was
one, and `v` only otherwise; other keys are untouched. -/
theorem lookupName_mapInsert (names : List (String × grammar_rule)) (k : String)
    (v : grammar_rule) :
    lookupName (mapInsert names k v) k = some ((lookupName names k).getD v) ∧
      (∀ n, n ≠ k → lookupName (mapInsert names k v) n = lookupName names n) := by
  unfold mapInsert
  by_cases h : names.any (fun p => p.1 == k) = true
  · rw [if_pos h]
    obtain ⟨w, hw⟩ := lookupName_isSome_of_any h
    rw [hw]
    exact ⟨rfl, fun n _ => rfl⟩
  · rw [if_neg h]
    have hnone : names.find? (fun p => p.1 == k) = none := by
      rw [List.find?_eq_none]
      intro x hx
      simp only [List.any_eq_true, not_exists, not_and] at h
      simpa using h x hx
    constructor
    · unfold lookupName
      rw [List.find?_append, hnone, Option.none_or]
      simp
    · intro n hn
      unfold lookupName
      rw [List.find?_append]
      have hkn : (k == n) = false := by
        rw [beq_eq_false_iff_ne]
        exact fun hk => hn hk.symm
      have hsingle : ([(k, v)].find? (fun p => p.1 == n)) = none := by
        simp only [List.find?_cons, List.find?_nil]
        simp [hkn]
      rw [hsingle, Option.or_none]

end ast

/-- C1: The claim asserts that `newlines_off` starts at zero and that, across
any sequence of buffer operations, `newlines_off` plus the newlines still in
`buf[0 .. pos-off)` equals the newlines in the stream prefix `[0, pos)`.  The
source constructor omits `newlines_off` from its initializer list, so the
member starts with an indeterminate value; with that value `1` (modelled by
`mkState`'s `junk` argument) the freshly constructed state over input `"a"`
already violates the equation: the left side is `1`, the right side `0`.
(The rest of the claim is sound: `newline_invariant_zero_init` proves the
equation for every reachable state once the initial value happens to be `0`.) -/
theorem c1_uninitialized_newlines_off_violates_invariant :
    (parse.state.mkState ['a'] 1).newlines_off +
        (((parse.state.mkState ['a'] 1).str.take
            ((parse.state.mkState ['a'] 1).pos - (parse.state.mkState ['a'] 1).str_off)).countP
          (fun c => c == '\n')) ≠
      (((parse.state.mkState ['a'] 1).input.take
          (parse.state.mkState ['a'] 1).pos).countP (fun c => c == '\n')) := by
  decide

/-- C2: The claim asserts that the `forgotten_state_error` thrown for an index
below the floor carries `newlines = newlines_off`, and that the reporter adds
that carried count.  The error constructor stores `0` into `newlines`
regardless of its argument, so over input `"\n\na"` read to index 3 and
then `forgetTo 2` (making `newlines_off = 2`, `str_off = 2`), indexing `1`
throws an error whose `newlines` field is `0`, and the reporter's counting
loop consequently adds `0` instead of the two discarded newlines. -/
theorem c2_forgotten_error_carries_zero_newlines :
    ((((parse.state.mkState ['\n', '\n', 'a'] 0).getSt 0).getSt 2).forgetTo 2).newlines_off = 2 ∧
    ((((parse.state.mkState ['\n', '\n', 'a'] 0).getSt 0).getSt 2).forgetTo 2).get 1 =
      .error { req := 1, avail := 2, newlines := 0 } ∧
    (parse.countNl ((((parse.state.mkState ['\n', '\n', 'a'] 0).getSt 0).getSt 2).forgetTo 2)
        1).1 = 0 :=
  ⟨rfl, rfl, rfl⟩

/-- C3 counterexample: adding two rules with the same name `"a"` leaves the
name index mapping `"a"` to the FIRST rule (`unordered_map::insert` does not
overwrite), while the claim says the index is overwritten to the later rule.
Both rules sit in the ordered list. -/
theorem c3_duplicate_name_keeps_first_counterexample :
    (((ast.grammar.empty.addRule ⟨"a", "T1", ast.matcher.empty⟩).addRule
        ⟨"a", "T2", ast.matcher.any⟩).rs =
      [⟨"a", "T1", ast.matcher.empty⟩, ⟨"a", "T2", ast.matcher.any⟩]) ∧
    (((ast.grammar.empty.addRule ⟨"a", "T1", ast.matcher.empty⟩).addRule
        ⟨"a", "T2", ast.matcher.any⟩).findName "a" = some ⟨"a", "T1", ast.matcher.empty⟩) ∧
    (⟨"a", "T1", ast.matcher.empty⟩ : ast.grammar_rule) ≠ ⟨"a", "T2", ast.matcher.any⟩ := by
  refine ⟨rfl, rfl, fun h => ?_⟩
  exact absurd (congrArg ast.grammar_rule.type h) (by decide)

/-- C3 (amended): `grammar::operator+=` appends the rule to the ordered list
and inserts it into the name index; when the name is already present the
index entry is NOT overwritten — it keeps mapping to the earlier rule — and
lookups of other names are unaffected. -/
theorem c3_addRule_spec (g : ast.grammar) (r : ast.grammar_rule) :
    (g.addRule r).rs = g.rs ++ [r] ∧
    (g.addRule r).findName r.name = some ((g.findName r.name).getD r) ∧
    (∀ n, n ≠ r.name → (g.addRule r).findName n = g.findName n) := by
  refine ⟨rfl, ?_, ?_⟩
  · exact (ast.lookupName_mapInsert g.names r.name r).1
  · intro n hn
    exact (ast.lookupName_mapInsert g.names r.name r).2 n hn

/-- Witness for C3: instantiates `c3_addRule_spec` on the empty grammar and a
concrete rule, discharging the `n ≠ r.name` hypothesis at `n = "b"`. -/
theorem c3_addRule_spec_witness :
    ("b" : String) ≠ "a" ∧
      (ast.grammar.empty.addRule ⟨"a", "T1", ast.matcher.empty⟩).findName "b" =
        ast.grammar.empty.findName "b" :=
  ⟨by decide, (c3_addRule_spec ast.grammar.empty ⟨"a", "T1", ast.matcher.empty⟩).2.2 "b"
    (by decide)⟩

/-- C4: The claim asserts the failure report prefixes the offending line with
its 1-based line number.  On a failing state over input `"\n@"` with
`maxRead() = 2`, the reporter prints `"line 1:   @"` (together with the
correct first line and `errPos = maxRead - line_start = 1`, exit code 1), but
the offending line `"@"` starts at index 1 and is line 2: the counting loop
`for (pos = startPos; pos > 0; --pos)` never inspects index 0, so a newline
at stream index 0 is never counted. -/
theorem c4_report_wrong_line_number_for_leading_newline :
    parse.report (((parse.state.mkState ['\n', '@'] 0).getSt 0).getSt 1) =
      .ok { maxPos := 2, startPos := 1, endPos := 2, lineCount := 1, errPos := 1,
            line1 := "Parse failure 2 bytes into the input:",
            line2 := "line 1:   @", exitCode := 1 } ∧
    parse.lineNumberAt ['\n', '@'] 1 = 2 :=
  ⟨rfl, rfl⟩

/-- C5 counterexample: a `result` holding `'a'` that is assigned
`parse::fails` converts to `'a'`, not to a default-constructed `char`
(`'\0'`): `operator=(const failure&)` clears only the success flag and
leaves `val` untouched. -/
theorem c5_fail_assignment_keeps_value_counterexample :
    ((parse.result.ofVal 'a').setFail).toBool = false ∧
    ((parse.result.ofVal 'a').setFail).toVal = 'a' ∧ ('a' : Char) ≠ '\x00' :=
  ⟨rfl, rfl, by decide⟩

/-- C5 (amended): conversion to `bool` always yields the success flag, and
conversion to `T` always yields the stored `val` field: the wrapped value for
a success; for a failure, the value the field last held — the
default-initialized member for a failure-constructed result, or the
previously wrapped value when the result became a failure by assignment of
`parse::fails` (which does not reset `val`).  Copy assignment copies `val`
only from a successful source. -/
theorem c5_result_conversions {T : Type} (v u : T) (r o : parse.result T) :
    (parse.result.ofVal v).toBool = true ∧ (parse.result.ofVal v).toVal = v ∧
    (parse.result.ofFail u).toBool = false ∧ (parse.result.ofFail u).toVal = u ∧
    (r.setVal v).toBool = true ∧ (r.setVal v).toVal = v ∧
    r.setFail.toBool = false ∧ r.setFail.toVal = r.toVal ∧
    ((r.setVal v).setFail).toVal = v ∧
    (r.assign o).toBool = o.toBool ∧
    (o.toBool = true → (r.assign o).toVal = o.toVal) ∧
    (o.toBool = false → (r.assign o).toVal = r.toVal) := by
  refine ⟨rfl, rfl, rfl, rfl, rfl, rfl, rfl, rfl, rfl, ?_, ?_, ?_⟩
  · unfold parse.result.assign parse.result.toBool
    split
    · next h => exact h.symm
    · next h => simpa using h
  · intro h
    unfold parse.result.toBool at h
    unfold parse.result.assign
    rw [if_pos h]
    rfl
  · intro h
    unfold parse.result.toBool at h
    unfold parse.result.assign
    rw [if_neg (by simp [h])]
    rfl

/-- Witness for C5: instantiates `c5_result_conversions` at `Char` values,
discharging the `o.toBool = false` hypothesis for a concrete failed source. -/
theorem c5_result_conversions_witness :
    (parse.result.ofFail 'q').toBool = false ∧
      ((parse.result.ofVal 'a').assign (parse.result.ofFail 'q')).toVal =
        (parse.result.ofVal 'a').toVal :=
  ⟨rfl, (c5_result_conversions 'b' 'z' (parse.result.ofVal 'a')
    (parse.result.ofFail 'q')).2.2.2.2.2.2.2.2.2.2.2 rfl⟩

/-- C6: `operator[](i)` throws a `forgotten_state_error` exactly when
`i < str_off`; for `str_off ≤ i` inside the stream it returns the `i`-th
stream byte (reading more input as needed), and at or past end of file it
returns `'\0'`. -/
theorem c6_get_throws_iff_below_floor (ps : parse.state) (i : Nat) (hwf : ps.wf) :
    ((∃ e, ps.get i = .error e) ↔ i < ps.str_off) ∧
    (ps.str_off ≤ i → i < ps.input.length →
      ∃ ps', ps.get i = .ok (ps.input.getD i '\x00', ps')) ∧
    (ps.str_off ≤ i → ps.input.length ≤ i → ∃ ps', ps.get i = .ok ('\x00', ps')) := by
  refine ⟨⟨?_, ?_⟩, ?_, ?_⟩
  · rintro ⟨e, he⟩
    by_contra hge
    obtain ⟨c, ps', hok⟩ := parse.get_ok_of_le (Nat.le_of_not_lt hge)
    rw [hok] at he
    exact absurd he (by simp)
  · intro h
    exact ⟨_, parse.get_err h⟩
  · intro h1 _
    obtain ⟨ps', hok, -⟩ := parse.get_spec hwf h1
    exact ⟨ps', hok⟩
  · intro h1 h2
    obtain ⟨ps', hok, -⟩ := parse.get_spec hwf h1
    have hnull : ps.input.getD i '\x00' = '\x00' := by
      simp [List.getD_eq_getElem?_getD, List.getElem?_eq_none h2]
    rw [hnull] at hok
    exact ⟨ps', hok⟩

/-- Witness for C6: a fresh state over `"ab"`, read at index 0. -/
theorem c6_get_throws_iff_below_floor_witness :
    ∃ ps', (parse.state.mkState ['a', 'b'] 0).get 0 =
      .ok ((parse.state.mkState ['a', 'b'] 0).input.getD 0 '\x00', ps') :=
  (c6_get_throws_iff_below_floor (parse.state.mkState ['a', 'b'] 0) 0
    (by unfold parse.state.wf; decide)).2.1 (by decide) (by decide)

/-- C7: each primitive matcher that returns (rather than throws) either
succeeds and advances `pos` by exactly one, or fails and leaves `pos`
exactly unchanged. -/
theorem c7_matcher_pos_discipline (ps : parse.state) (c s e : Char)
    (r : parse.result Char) (ps' : parse.state) :
    (parse.any ps = .ok (r, ps') →
      ((r.toBool = true ∧ ps'.pos = ps.pos + 1) ∨ (r.toBool = false ∧ ps'.pos = ps.pos))) ∧
    (parse.matchesChar c ps = .ok (r, ps') →
      ((r.toBool = true ∧ ps'.pos = ps.pos + 1) ∨ (r.toBool = false ∧ ps'.pos = ps.pos))) ∧
    (parse.in_range s e ps = .ok (r, ps') →
      ((r.toBool = true ∧ ps'.pos = ps.pos + 1) ∨ (r.toBool = false ∧ ps'.pos = ps.pos))) := by
  refine ⟨?_, ?_, ?_⟩
  · intro h
    unfold parse.any at h
    cases hg : ps.get ps.pos with
    | error e0 =>
      rw [hg] at h
      exact absurd h (by simp)
    | ok p =>
      obtain ⟨c1, ps1⟩ := p
      rw [hg] at h
      have hp1 := (parse.get_preserves hg).2.1
      dsimp only at h
      split at h
      · simp only [Except.ok.injEq, Prod.mk.injEq] at h
        obtain ⟨hr, hps⟩ := h
        subst hr
        subst hps
        exact Or.inr ⟨rfl, hp1⟩
      · cases hg2 : ps1.get ps1.pos with
        | error e1 =>
          rw [hg2] at h
          exact absurd h (by simp)
        | ok p2 =>
          obtain ⟨c2, ps2⟩ := p2
          rw [hg2] at h
          simp only [Except.ok.injEq, Prod.mk.injEq] at h
          obtain ⟨hr, hps⟩ := h
          subst hr
          subst hps
          refine Or.inl ⟨rfl, ?_⟩
          show ps2.pos + 1 = ps.pos + 1
          rw [(parse.get_preserves hg2).2.1, hp1]
  · intro h
    unfold parse.matchesChar at h
    cases hg : ps.get ps.pos with
    | error e0 =>
      rw [hg] at h
      exact absurd h (by simp)
    | ok p =>
      obtain ⟨c1, ps1⟩ := p
      rw [hg] at h
      have hp1 := (parse.get_preserves hg).2.1
      dsimp only at h
      split at h
      · simp only [Except.ok.injEq, Prod.mk.injEq] at h
        obtain ⟨hr, hps⟩ := h
        subst hr
        subst hps
        exact Or.inr ⟨rfl, hp1⟩
      · simp only [Except.ok.injEq, Prod.mk.injEq] at h
        obtain ⟨hr, hps⟩ := h
        subst hr
        subst hps
        refine Or.inl ⟨rfl, ?_⟩
        show ps1.pos + 1 = ps.pos + 1
        rw [hp1]
  · intro h
    unfold parse.in_range at h
    cases hg : ps.get ps.pos with
    | error e0 =>
      rw [hg] at h
      exact absurd h (by simp)
    | ok p =>
      obtain ⟨c1, ps1⟩ := p
      rw [hg] at h
      have hp1 := (parse.get_preserves hg).2.1
      dsimp only at h
      split at h
      · simp only [Except.ok.injEq, Prod.mk.injEq] at h
        obtain ⟨hr, hps⟩ := h
        subst hr
        subst hps
        exact Or.inr ⟨rfl, hp1⟩
      · simp only [Except.ok.injEq, Prod.mk.injEq] at h
        obtain ⟨hr, hps⟩ := h
        subst hr
        subst hps
        refine Or.inl ⟨rfl, ?_⟩
        show ps1.pos + 1 = ps.pos + 1
        rw [hp1]

/-- Witness for C7: `matches<'a'>` on a fresh state over `"a"` succeeds and
moves `pos` from 0 to 1. -/
theorem c7_matcher_pos_discipline_witness :
    ((parse.result.ofVal 'a').toBool = true ∧
        (⟨['a'], 1, ['a'], 0, 0⟩ : parse.state).pos = (parse.state.mkState ['a'] 0).pos + 1) ∨
    ((parse.result.ofVal 'a').toBool = false ∧
        (⟨['a'], 1, ['a'], 0, 0⟩ : parse.state).pos = (parse.state.mkState ['a'] 0).pos) :=
  (c7_matcher_pos_discipline (parse.state.mkState ['a'] 0) 'a' 'x' 'y'
    (parse.result.ofVal 'a') ⟨['a'], 1, ['a'], 0, 0⟩).2.1 rfl

/-- C8: within the already-read region, `operator[]` is deterministic
(reading the same index again returns the same byte), `forgetTo j` does not
change the byte returned for `i ≥ j`, and `forgetTo` at or below the current
floor is a no-op. -/
theorem c8_deterministic_and_forget_stable (ps : parse.state) (i j : Nat) (hwf : ps.wf)
    (h1 : ps.str_off ≤ j) (h2 : j ≤ i) (h3 : i ≤ ps.maxRead) :
    (∀ c ps', ps.get i = .ok (c, ps') →
      ((∃ ps2, ps'.get i = .ok (c, ps2)) ∧
        (∃ ps3, (ps.forgetTo j).get i = .ok (c, ps3)))) ∧
    (∀ k, k ≤ ps.str_off → ps.forgetTo k = ps) := by
  constructor
  · intro c ps' h
    have hoff_i : ps.str_off ≤ i := le_trans h1 h2
    obtain ⟨ps'', hok, hwf', hin', hpos', hoff', hnl', -⟩ := parse.get_spec hwf hoff_i
    rw [h] at hok
    simp only [Except.ok.injEq, Prod.mk.injEq] at hok
    obtain ⟨hc, hps⟩ := hok
    constructor
    · have hwf2 : ps'.wf := by rw [hps]; exact hwf'
      have hoff2 : ps'.str_off ≤ i := by rw [hps, hoff']; exact hoff_i
      obtain ⟨ps2, hok2, -⟩ := parse.get_spec hwf2 hoff2
      have hin2 : ps'.input = ps.input := by rw [hps]; exact hin'
      refine ⟨ps2, ?_⟩
      rw [hok2, hin2, ← hc]
    · rcases le_or_lt j ps.str_off with hj | hj
      · rw [parse.forgetTo_le hj]
        exact ⟨ps', by rw [h, hc]⟩
      · have hsp := parse.forgetTo_spec hwf hj (le_trans h2 h3)
        have hoff3 : (ps.forgetTo j).str_off ≤ i := by rw [hsp.2.2.2.1]; exact h2
        obtain ⟨ps3, hok3, -⟩ := parse.get_spec hsp.1 hoff3
        refine ⟨ps3, ?_⟩
        rw [hok3, hsp.2.1, ← hc]
  · intro k hk
    exact parse.forgetTo_le hk

/-- Witness for C8: over `"ab"` with both bytes read, index 1 re-reads as
`'b'` and still reads as `'b'` after `forgetTo 1`. -/
theorem c8_deterministic_and_forget_stable_witness :
    (∃ ps2, ((parse.state.mkState ['a', 'b'] 0).getSt 1).get 1 = .ok ('b', ps2)) ∧
    (∃ ps3, (((parse.state.mkState ['a', 'b'] 0).getSt 1).forgetTo 1).get 1 =
      .ok ('b', ps3)) :=
  (c8_deterministic_and_forget_stable ((parse.state.mkState ['a', 'b'] 0).getSt 1) 1 1
    (by unfold parse.state.wf; decide) (by decide) (by decide) (by decide)).1 'b'
    ((parse.state.mkState ['a', 'b'] 0).getSt 1) rfl

/-- C9: the deque accesses of `forgetTo ps i` (the newline-counting loop
bound and the erase range) are in bounds precisely when `i ≤ maxRead()`;
beyond `maxRead()` they lie past the end of the deque, so a total embedding
of `forgetTo` is faithful only under the precondition `i ≤ maxRead()`. -/
theorem c9_forgetTo_in_bounds_iff (ps : parse.state) (i : Nat) :
    parse.forgetToInBounds ps i ↔ i ≤ ps.maxRead := by
  unfold parse.forgetToInBounds parse.state.maxRead
  constructor
  · intro h
    by_cases hc : ps.str_off < i
    · have := h hc
      omega
    · omega
  · intro h hlt
    omega

/-- C10: at end of input, `operator[]` yields the `'\0'` sentinel, which
`matches<'\0'>` and any `in_range<lo,hi>` with `lo ≤ '\0' ≤ hi` happily
match, advancing `pos` — past `maxRead()` when `pos` was already at or past
it — while only `any` refuses the sentinel and fails without moving `pos`.
A literal NUL byte inside the input is likewise matched by `matches<'\0'>`
(last conjunct). -/
theorem c10_nul_sentinel_matched (ps : parse.state) (lo hi : Char) (hwf : ps.wf)
    (hoff : ps.str_off ≤ ps.pos) (heof : ps.input.length ≤ ps.pos)
    (hmr : ps.maxRead ≤ ps.pos) :
    (∃ ps', parse.matchesChar '\x00' ps = .ok (parse.result.ofVal '\x00', ps') ∧
      ps'.pos = ps.pos + 1 ∧ ps'.maxRead < ps'.pos) ∧
    (lo ≤ '\x00' → '\x00' ≤ hi →
      ∃ ps', parse.in_range lo hi ps = .ok (parse.result.ofVal '\x00', ps') ∧
        ps'.pos = ps.pos + 1) ∧
    (∃ u ps', parse.any ps = .ok (parse.result.ofFail u, ps') ∧ ps'.pos = ps.pos) ∧
    (∀ ps2 : parse.state, ps2.wf → ps2.str_off ≤ ps2.pos →
      ps2.input.getD ps2.pos ' ' = '\x00' →
      ∃ ps', parse.matchesChar '\x00' ps2 = .ok (parse.result.ofVal '\x00', ps') ∧
        ps'.pos = ps2.pos + 1) := by
  obtain ⟨ps1, hok, hwf1, hin1, hpos1, hoff1, hnl1, hmr1, hmr2, -⟩ :=
    parse.get_spec hwf hoff
  have hbyte : ps.input.getD ps.pos '\x00' = '\x00' := by
    simp [List.getD_eq_getElem?_getD, List.getElem?_eq_none heof]
  rw [hbyte] at hok
  refine ⟨?_, ?_, ?_, ?_⟩
  · refine ⟨{ ps1 with pos := ps1.pos + 1 }, ?_, ?_, ?_⟩
    · unfold parse.matchesChar
      rw [hok]
      dsimp only
      rw [if_neg (by simp)]
    · show ps1.pos + 1 = ps.pos + 1
      rw [hpos1]
    · have h1 : ({ ps1 with pos := ps1.pos + 1 } : parse.state).maxRead = ps1.maxRead := rfl
      have h2 : ({ ps1 with pos := ps1.pos + 1 } : parse.state).pos = ps1.pos + 1 := rfl
      rw [h1, h2, hpos1]
      have hx : ps1.maxRead ≤ ps.pos := le_trans hmr2 (max_le hmr heof)
      omega
  · intro hlo hhi
    refine ⟨{ ps1 with pos := ps1.pos + 1 }, ?_, ?_⟩
    · unfold parse.in_range
      rw [hok]
      dsimp only
      rw [if_neg ?_]
      rintro (hx | hx)
      · exact absurd hx (not_lt.mpr hlo)
      · exact absurd hx (not_lt.mpr hhi)
    · show ps1.pos + 1 = ps.pos + 1
      rw [hpos1]
  · refine ⟨'\x00', ps1, ?_, hpos1⟩
    unfold parse.any
    rw [hok]
    dsimp only
    rw [if_pos rfl]
  · intro ps2 hwf2 hoff2 hb
    obtain ⟨ps3, hok3, hwf3, hin3, hpos3, -⟩ := parse.get_spec hwf2 hoff2
    have hbyte2 : ps2.input.getD ps2.pos '\x00' = '\x00' := by
      cases hx : ps2.input[ps2.pos]? with
      | none =>
        rw [List.getD_eq_getElem?_getD, hx] at hb
        exact absurd hb (by decide)
      | some c =>
        rw [List.getD_eq_getElem?_getD, hx] at hb ⊢
        exact hb
    rw [hbyte2] at hok3
    refine ⟨{ ps3 with pos := ps3.pos + 1 }, ?_, ?_⟩
    · unfold parse.matchesChar
      rw [hok3]
      dsimp only
      rw [if_neg (by simp)]
    · show ps3.pos + 1 = ps2.pos + 1
      rw [hpos3]

/-- Witness for C10: the empty input, where `pos = maxRead() = 0`:
`matches<'\0'>` succeeds and pushes `pos` to 1, past `maxRead()`. -/
theorem c10_nul_sentinel_matched_witness :
    ∃ ps', parse.matchesChar '\x00' (parse.state.mkState [] 0) =
        .ok (parse.result.ofVal '\x00', ps') ∧
      ps'.pos = (parse.state.mkState [] 0).pos + 1 ∧ ps'.maxRead < ps'.pos :=
  (c10_nul_sentinel_matched (parse.state.mkState [] 0) '\x00' '\x00'
    (by unfold parse.state.wf; decide) (by decide) (by decide) (by decide)).1
